import Mathlib

/-!
Shallow embedding of the DFT execution core of `include/kfr/dft/fft.hpp`.

The embedding covers:

* `dft_stage` — the per-stage routing data read by the scheduler
  (`repeats`, `out_offset`, `recursion`, `can_inplace`, `to_scratch`);
  the numeric butterfly kernels are external (virtual `do_execute`) and
  are represented abstractly: the scheduler is modelled as producing the
  sequence of kernel invocations (`Ev` events) it performs, each event
  recording the stage index, the buffer the stage writes (`select_out`),
  the buffer it reads (`select_in`) and the accumulated output offset.
* `execute_dft` — the fast path, the `in_scratch` input-copy decision and
  the outer stage loop with the iterative, stack-based recursion
  flattening (a 32-entry counter array).  Out-of-bounds accesses to the
  counter array and the `size_t` underflow of `rdepth--` at level 0 are
  undefined behaviour in the C++ source and are modelled as `none`; the
  do-while loop is driven by explicit fuel, so the embedding is total.
* a recursive depth-first reference implementation (`refRunG`, `refPlan`)
  of the recursion run, used to settle the refinement claim.
* `fft_multiply`, `fft_multiply_accumulate`, `fft_multiply_accumulate3` —
  the spectral helpers, over an arbitrary coefficient type.
* the `dft_plan_real` execute overloads, as the exact sequences of
  (packing stage / inner plan) calls with their direction tags, plus a
  compositional result model for comparing two overloads.
* a `Modelled from the spec` DFT over a commutative ring for the
  round-trip property (the kernels themselves are outside `src/`).

The direction tag (`cbool<inverse>`) is passed through `execute_dft`
unchanged and never influences routing, so the complex-plan model leaves
it out; the real-plan model keeps it because the two adapter overloads
disagree on it.
-/

namespace KfrDft

/-- Which caller-visible buffer a pointer refers to: the input buffer, the
output buffer, or the scratch region carved from the tail of `temp`. -/
inductive Buf : Type where
  | inp : Buf
  | out : Buf
  | scratch : Buf
deriving DecidableEq, Repr

/-- The routing-relevant fields of `dft_stage<T>` (fft.hpp, lines 53-70).
The geometry fields (`radix`, `stage_size`, ...) and the kernel itself are
not read by the scheduler and are omitted. -/
structure dft_stage where
  repeats : Nat
  out_offset : Nat
  recursion : Bool
  can_inplace : Bool
  to_scratch : Bool
deriving DecidableEq, Repr

/-- Default field values from the C++ struct definition
(`repeats = 1`, `out_offset = 0`, `recursion = false`,
`can_inplace = true`, `to_scratch = false`). -/
instance : Inhabited dft_stage :=
  ⟨{ repeats := 1, out_offset := 0, recursion := false,
     can_inplace := true, to_scratch := false }⟩

/-- The stage the plan holds at index `i` (call sites always index in
bounds; the default is never reached there). -/
def stageAt (st : List dft_stage) (i : Nat) : dft_stage :=
  (st.get? i).getD default

/-- `dft_plan::select_out` (fft.hpp, lines 246-249): the output buffer of
stage `stage` is the scratch buffer exactly when its `to_scratch` flag is
set. -/
def select_out (st : List dft_stage) (stage : Nat) : Buf :=
  if (stageAt st stage).to_scratch then Buf.scratch else Buf.out

/-- `dft_plan::select_in` (fft.hpp, lines 239-245): stage 0 reads from the
scratch copy when `in_scratch` holds, otherwise from `in`; every later
stage reads from wherever the previous stage wrote. -/
def select_in (st : List dft_stage) (stage : Nat) (in_scratch : Bool) : Buf :=
  if stage = 0 then (if in_scratch then Buf.scratch else Buf.inp)
  else if (stageAt st (stage - 1)).to_scratch then Buf.scratch else Buf.out

/-- One kernel invocation performed by the scheduler: stage index, output
buffer, input buffer, and the accumulated output-pointer offset added to
both pointers (`rout + offset`, `rin + offset`; 0 outside recursion
runs). -/
structure Ev where
  idx : Nat
  outB : Buf
  inB : Buf
  off : Nat
deriving DecidableEq, Repr

/-- The invocation event the scheduler records for stage `i` at offset
`off`: buffers come from `select_out` / `select_in` exactly as at the
`stages[rdepth]->execute(...)` call sites. -/
def evAt (st : List dft_stage) (insc : Bool) (i off : Nat) : Ev :=
  ⟨i, select_out st i, select_in st i insc, off⟩

/-- The descend test of the traversal,
`rdepth < count - 1 && stages[rdepth + 1]->recursion`. -/
def descendQ (st : List dft_stage) (l : Nat) : Bool :=
  decide (l < st.length - 1) && (stageAt st (l + 1)).recursion

/-- State of the do-while traversal (fft.hpp, lines 279-298): the loop
anchor `depth`, the moving level `rdepth`, the running `maxdepth` and
`offset`, the 32-entry repeat-counter array, and the events recorded so
far (most recent first). -/
structure DW where
  depth : Nat
  rdepth : Nat
  maxdepth : Nat
  offset : Nat
  stack : List Nat
  trace : List Ev
deriving DecidableEq, Repr

/-- What the do-while loop hands back to the outer loop: the final
`maxdepth`, the counter array and the accumulated events. -/
structure DWRes where
  maxdepth : Nat
  stack : List Nat
  trace : List Ev
deriving DecidableEq, Repr

/-- One iteration of the do-while body followed by the `rdepth != depth`
test: `none` models undefined behaviour (counter-array access out of
bounds, or the `size_t` wrap of `rdepth--` at level 0), `Sum.inl` is loop
exit, `Sum.inr` the next state. -/
def dwBody (st : List dft_stage) (insc : Bool) (s : DW) : Option (DWRes ⊕ DW) :=
  match s.stack.get? s.rdepth, st.get? s.rdepth with
  | some c, some sg =>
    if c = sg.repeats then
      if s.rdepth = 0 then none
      else
        let stack1 := s.stack.set s.rdepth 0
        let rd := s.rdepth - 1
        if rd = s.depth then some (Sum.inl ⟨s.maxdepth, stack1, s.trace⟩)
        else some (Sum.inr ⟨s.depth, rd, s.maxdepth, s.offset, stack1, s.trace⟩)
    else
      let ev := evAt st insc s.rdepth s.offset
      let stack1 := s.stack.set s.rdepth (c + 1)
      let off1 := s.offset + sg.out_offset
      let rd := if descendQ st s.rdepth then s.rdepth + 1 else s.rdepth
      let mx := if descendQ st s.rdepth then s.maxdepth else s.rdepth
      if rd = s.depth then some (Sum.inl ⟨mx, stack1, ev :: s.trace⟩)
      else some (Sum.inr ⟨s.depth, rd, mx, off1, stack1, ev :: s.trace⟩)
  | _, _ => none

/-- The do-while loop, with fuel making the model total; adequate fuel
exists for every well-formed plan (see the totality theorem). -/
def dowhile (st : List dft_stage) (insc : Bool) : Nat → DW → Option DWRes
  | 0, _ => none
  | fuel + 1, s =>
    match dwBody st insc s with
    | none => none
    | some (Sum.inl r) => some r
    | some (Sum.inr s1) => dowhile st insc fuel s1

/-- Exactly `n` non-exiting iterations of the do-while body. -/
def dwN (st : List dft_stage) (insc : Bool) : Nat → DW → Option DW
  | 0, s => some s
  | n + 1, s =>
    match dwBody st insc s with
    | some (Sum.inr s1) => dwN st insc n s1
    | _ => none

/-- The outer stage loop of `execute_dft` (fft.hpp, lines 272-307):
non-recursion stages execute once and advance `depth` by one; a
recursion-marked stage enters the do-while traversal and resumes at
`maxdepth + 1`. -/
def outerLoop (st : List dft_stage) (insc : Bool) :
    Nat → Nat → List Nat → List Ev → Option (List Ev)
  | 0, _, _, _ => none
  | fuel + 1, depth, stack, tr =>
    match st.get? depth with
    | none => some tr.reverse
    | some sg =>
      if sg.recursion then
        match dowhile st insc fuel ⟨depth, depth, depth, 0, stack, tr⟩ with
        | none => none
        | some r => outerLoop st insc fuel (r.maxdepth + 1) r.stack r.trace
      else
        outerLoop st insc fuel (depth + 1) stack (evAt st insc depth 0 :: tr)

/-- Result of one `execute_dft` call: whether the input was first copied
into the scratch buffer (`in_scratch`), and the kernel invocations in
order. -/
structure ExecResult where
  copied : Bool
  trace : List Ev
deriving DecidableEq, Repr

/-- `dft_plan::execute_dft` (fft.hpp, lines 251-308).  `inEqOut` models
the pointer comparison `in == out`.  The fast path delegates a single
in-place-capable (or non-aliased) stage directly to the kernel with the
caller buffers; otherwise the input is copied to scratch when the first
stage cannot run in place and the buffers alias, and the stage pipeline
runs with `select_in` / `select_out` routing.  An empty stage list
dereferences `stages[0]` out of bounds, hence `none`. -/
def execute_dft (st : List dft_stage) (inEqOut : Bool) (fuel : Nat) :
    Option ExecResult :=
  match st with
  | [] => none
  | s0 :: _ =>
    if st.length = 1 ∧ (s0.can_inplace = true ∨ inEqOut = false) then
      some ⟨false, [⟨0, Buf.out, Buf.inp, 0⟩]⟩
    else
      let insc := !s0.can_inplace && inEqOut
      match outerLoop st insc fuel 0 (List.replicate 32 0) [] with
      | none => none
      | some tr => some ⟨insc, tr⟩

/-- Repeat count of the stage at index `i` (in bounds at all call
sites). -/
def repAt (st : List dft_stage) (i : Nat) : Nat :=
  (stageAt st i).repeats

/-- Length of the contiguous run of recursion-marked stages at the head of
the list. -/
def recRun : List dft_stage → Nat
  | [] => 0
  | s :: rest => if s.recursion then recRun rest + 1 else 0

/-- Reference depth-first recursion, one level: run `k` repeats of the
stage at index `l`; each repeat records the invocation at the running
offset, advances the offset by `out_offset`, and, when the next stage is
also recursion-marked, descends into a full pass of that child before the
next repeat.  The child runner is a parameter so that the repeat loop is
structural in `k`. -/
def refRunAux (st : List dft_stage) (insc : Bool)
    (child : Nat → List Ev × Nat) (l : Nat) : Nat → Nat → List Ev × Nat
  | 0, off => ([], off)
  | k + 1, off =>
    match st.get? l with
    | none => ([], off)
    | some sg =>
      let ev := evAt st insc l off
      let off1 := off + sg.out_offset
      let d := if descendQ st l then child off1 else ([], off1)
      let rest := refRunAux st insc child l k d.2
      (ev :: (d.1 ++ rest.1), rest.2)

/-- Reference depth-first recursion over a run of recursion stages,
descending from level `l`; `gas` bounds the descent depth only (any
`gas ≥ st.length - l` is adequate, and the development instantiates it at
`st.length`). -/
def refRunG (st : List dft_stage) (insc : Bool) :
    Nat → Nat → Nat → Nat → List Ev × Nat
  | 0, _, _, off => ([], off)
  | gas + 1, l, k, off =>
    refRunAux st insc (fun o => refRunG st insc gas (l + 1) (repAt st (l + 1)) o)
      l k off

/-- Reference execution of the whole pipeline: non-recursion stages run
once in order; a recursion run is replaced by the depth-first reference
recursion and then skipped.  With `topOnce = true` the first level of each
run executes exactly once (what the iterative code does); with
`topOnce = false` it runs its full `repeats` count (what the claim
states).  `gas` bounds the number of stages processed (`st.length` is
adequate). -/
def refPlanG (st : List dft_stage) (insc : Bool) (topOnce : Bool) :
    Nat → Nat → List Ev
  | 0, _ => []
  | gas + 1, base =>
    match st.get? base with
    | none => []
    | some sg =>
      if sg.recursion then
        let k := if topOnce then 1 else sg.repeats
        (refRunG st insc st.length base k 0).1 ++
          refPlanG st insc topOnce gas (base + recRun (st.drop base))
      else
        evAt st insc base 0 :: refPlanG st insc topOnce gas (base + 1)

/-- Reference trace of the full pipeline, from stage 0. -/
def refPlan (st : List dft_stage) (insc : Bool) (topOnce : Bool) : List Ev :=
  refPlanG st insc topOnce st.length 0

/-- Shape of every event the scheduler can record: an in-bounds stage
index whose buffers were chosen by `select_out` and `select_in`. -/
def evWF (st : List dft_stage) (insc : Bool) (e : Ev) : Prop :=
  e.idx < st.length ∧ e.outB = select_out st e.idx ∧
    e.inB = select_in st e.idx insc

/-- Witness plan: a three-level recursion run (`repeats` 1, 2, 2 with
output offsets 4, 2, 1 and alternating `to_scratch`) followed by one
non-recursion reorder stage. -/
def wPlan : List dft_stage :=
  [⟨1, 4, true, true, true⟩, ⟨2, 2, true, true, false⟩,
   ⟨2, 1, true, true, true⟩, ⟨1, 0, false, true, false⟩]

/-- Counterexample plan for the recursion-flattening claim: the first
recursion stage has `repeats = 2`, followed by a non-recursion stage. -/
def cexStages : List dft_stage :=
  [⟨2, 1, true, true, false⟩, ⟨1, 0, false, true, false⟩]

/-- Trace the iterative traversal produces on `wPlan` (and, per claim C1
as amended, equal to the recursive reference trace). -/
def wTrace : List Ev :=
  [⟨0, Buf.scratch, Buf.inp, 0⟩, ⟨1, Buf.out, Buf.scratch, 4⟩,
   ⟨2, Buf.scratch, Buf.out, 6⟩, ⟨2, Buf.scratch, Buf.out, 7⟩,
   ⟨1, Buf.out, Buf.scratch, 8⟩, ⟨2, Buf.scratch, Buf.out, 10⟩,
   ⟨2, Buf.scratch, Buf.out, 11⟩, ⟨3, Buf.out, Buf.scratch, 0⟩]

/-- Result of the C3 witness run: the copy decision is taken and stage 0
reads the scratch copy. -/
def c3Result : ExecResult :=
  ⟨true, [⟨0, Buf.scratch, Buf.scratch, 0⟩, ⟨1, Buf.out, Buf.scratch, 0⟩]⟩

/-- A packed spectral bin: one `complex<T>` value, over an arbitrary
coefficient type (exact arithmetic stands in for the float type). -/
structure Cx (α : Type) where
  re : α
  im : α
deriving DecidableEq, Repr

/-- Complex multiplication of two bins, the elementwise operation of the
univector expression `src1 * src2`. -/
def cmul {α : Type} [Mul α] [Add α] [Sub α] (a b : Cx α) : Cx α :=
  ⟨a.re * b.re - a.im * b.im, a.re * b.im + a.im * b.re⟩

/-- Complex addition of two bins, the elementwise operation of the
univector expression `dest + ...`. -/
def cadd {α : Type} [Add α] (a b : Cx α) : Cx α :=
  ⟨a.re + b.re, a.im + b.im⟩

/-- The zero bin, used only as the (never observed in the theorems)
fallback of indexing an empty spectrum, which is out-of-bounds access in
the C++ source. -/
def cx0 {α : Type} [Zero α] : Cx α := ⟨0, 0⟩

/-- `dft_pack_format` (fft.hpp, lines 110-114). -/
inductive dft_pack_format : Type where
  | Perm : dft_pack_format
  | CCs : dft_pack_format
deriving DecidableEq, Repr

/-- `fft_multiply` (fft.hpp, lines 381-391): `f0` combines the bin-0
components independently, `dest` becomes the elementwise complex product,
and bin 0 is overwritten with `f0` when the format is `Perm`. -/
def fft_multiply {α : Type} [Mul α] [Add α] [Sub α] [Zero α]
    (src1 src2 : List (Cx α)) (fmt : dft_pack_format) : List (Cx α) :=
  let f0 : Cx α := ⟨(src1.getD 0 cx0).re * (src2.getD 0 cx0).re,
                    (src1.getD 0 cx0).im * (src2.getD 0 cx0).im⟩
  let dest := List.zipWith cmul src1 src2
  if fmt = dft_pack_format.Perm then dest.set 0 f0 else dest

/-- `fft_multiply_accumulate`, two-source variant (fft.hpp, lines
393-405): `dest + src1 * src2` with the same bin-0 special case. -/
def fft_multiply_accumulate {α : Type} [Mul α] [Add α] [Sub α] [Zero α]
    (dest src1 src2 : List (Cx α)) (fmt : dft_pack_format) : List (Cx α) :=
  let f0 : Cx α :=
    ⟨(dest.getD 0 cx0).re + (src1.getD 0 cx0).re * (src2.getD 0 cx0).re,
     (dest.getD 0 cx0).im + (src1.getD 0 cx0).im * (src2.getD 0 cx0).im⟩
  let d := List.zipWith cadd dest (List.zipWith cmul src1 src2)
  if fmt = dft_pack_format.Perm then d.set 0 f0 else d

/-- `fft_multiply_accumulate`, three-source variant (fft.hpp, lines
406-418): `src1 + src2 * src3` with the same bin-0 special case. -/
def fft_multiply_accumulate3 {α : Type} [Mul α] [Add α] [Sub α] [Zero α]
    (src1 src2 src3 : List (Cx α)) (fmt : dft_pack_format) : List (Cx α) :=
  let f0 : Cx α :=
    ⟨(src1.getD 0 cx0).re + (src2.getD 0 cx0).re * (src3.getD 0 cx0).re,
     (src1.getD 0 cx0).im + (src2.getD 0 cx0).im * (src3.getD 0 cx0).im⟩
  let d := List.zipWith cadd src1 (List.zipWith cmul src2 src3)
  if fmt = dft_pack_format.Perm then d.set 0 f0 else d

def c5d : List (Cx Int) := [⟨1, 2⟩]

def c5a : List (Cx Int) := [⟨3, 4⟩]

def c5b : List (Cx Int) := [⟨5, 6⟩]

def c5c : List (Cx Int) := [⟨7, 8⟩]

/-- Direction tag of a stage or plan call: `cdirect_t` (cfalse, forward)
or `cinvert_t` (ctrue, inverse). -/
inductive RDir : Type where
  | direct : RDir
  | invert : RDir
deriving DecidableEq, Repr

/-- Which caller pointer an adapter call receives (after the ptr_cast
reinterpretations). -/
inductive RPtr : Type where
  | outPtr : RPtr
  | inPtr : RPtr
deriving DecidableEq, Repr

/-- One call made by a `dft_plan_real::execute` overload: the packing
stage (`fmt_stage->execute`, `isFmt = true`) or the inner half-size plan
(`execute_dft`, `isFmt = false`), with its direction tag, destination and
source pointers, and whether the temp argument is nullptr. -/
structure RCall where
  isFmt : Bool
  dir : RDir
  dst : RPtr
  src : RPtr
  tempNull : Bool
deriving DecidableEq, Repr

/-- `dft_plan_real::execute(complex<T>* out, const T* in, u8* temp)`
(fft.hpp, lines 337-341), forward real-to-complex over raw pointers: the
inner plan runs forward reading the reinterpreted real input, then the
packing stage converts in place on `out` — the final write — with null
temp. -/
def realExecuteForwardPtr : List RCall :=
  [⟨false, RDir.direct, RPtr.outPtr, RPtr.inPtr, false⟩,
   ⟨true, RDir.direct, RPtr.outPtr, RPtr.outPtr, true⟩]

/-- `dft_plan_real::execute(T* out, const complex<T>* in, u8* temp)`
(fft.hpp, lines 342-347), inverse complex-to-real over raw pointers: the
packing stage runs first — with the direct tag, `cfalse` — writing
`outdata` from `in` with null temp, then the inner plan runs in inverse
direction in place on `outdata`. -/
def realExecuteInversePtr : List RCall :=
  [⟨true, RDir.direct, RPtr.outPtr, RPtr.inPtr, true⟩,
   ⟨false, RDir.invert, RPtr.outPtr, RPtr.outPtr, false⟩]

/-- The univector forward overload (fft.hpp, lines 349-355): the same two
calls as the raw-pointer forward overload. -/
def realExecuteForwardUni : List RCall :=
  [⟨false, RDir.direct, RPtr.outPtr, RPtr.inPtr, false⟩,
   ⟨true, RDir.direct, RPtr.outPtr, RPtr.outPtr, true⟩]

/-- The univector inverse overload (fft.hpp, lines 356-363): the packing
stage runs first with the invert tag, `ctrue`, then the inner plan in
inverse direction. -/
def realExecuteInverseUni : List RCall :=
  [⟨true, RDir.invert, RPtr.outPtr, RPtr.inPtr, true⟩,
   ⟨false, RDir.invert, RPtr.outPtr, RPtr.outPtr, false⟩]

/-- Value semantics of the raw-pointer inverse overload as a buffer
transformation, with the packing stage and inner plan as abstract
direction-sensitive functions (fft.hpp, lines 342-347): packing with the
direct tag, then the inner plan inverse. -/
def realInversePtrResult {β : Type}
    (fmtSem innerSem : RDir → List β → List β) (inData : List β) : List β :=
  innerSem RDir.invert (fmtSem RDir.direct inData)

/-- Value semantics of the univector inverse overload (fft.hpp, lines
356-363): packing with the invert tag, then the inner plan inverse. -/
def realInverseUniResult {β : Type}
    (fmtSem innerSem : RDir → List β → List β) (inData : List β) : List β :=
  innerSem RDir.invert (fmtSem RDir.invert inData)

def c10FmtSem (d : RDir) (xs : List Int) : List Int :=
  if d = RDir.direct then xs.map (fun v => v + 1) else xs.map (fun v => v + 2)

def c10InnerSem (_ : RDir) (xs : List Int) : List Int := xs

/-- Caller-visible memory: the contents of the input, output and scratch
buffers. -/
structure Mem (α : Type) where
  inBuf : List α
  outBuf : List α
  scrBuf : List α
deriving DecidableEq, Repr

/-- Contents of one buffer. -/
def bufGet {α : Type} (m : Mem α) : Buf → List α
  | Buf.inp => m.inBuf
  | Buf.out => m.outBuf
  | Buf.scratch => m.scrBuf

/-- Overwrite one buffer. -/
def bufSet {α : Type} (m : Mem α) : Buf → List α → Mem α
  | Buf.inp, v => ⟨v, m.outBuf, m.scrBuf⟩
  | Buf.out, v => ⟨m.inBuf, v, m.scrBuf⟩
  | Buf.scratch, v => ⟨m.inBuf, m.outBuf, v⟩

/-- Interpretation of one recorded invocation over memory: an arbitrary
kernel semantics `sem` computes the written contents from the event and
the current memory, and the invocation writes only the buffer selected as
its output — the stage contract that kernels never write through their
input pointer. -/
def runEv {α : Type} (sem : Ev → Mem α → List α) (m : Mem α) (e : Ev) :
    Mem α :=
  bufSet m e.outB (sem e m)

/-- Interpretation of a whole recorded trace. -/
def runTrace {α : Type} (sem : Ev → Mem α → List α) :
    Mem α → List Ev → Mem α
  | m, [] => m
  | m, e :: tr => runTrace sem (runEv sem m e) tr

/-- Interpretation of one `execute_dft` call: the `in_scratch` memcpy (a
write of the input contents to the scratch buffer) when `copied` is set,
then the recorded invocations. -/
def runExec {α : Type} (sem : Ev → Mem α → List α) (r : ExecResult)
    (m : Mem α) : Mem α :=
  runTrace sem
    (if r.copied then bufSet m Buf.scratch (bufGet m Buf.inp) else m)
    r.trace

def c9Sem (e : Ev) (_ : Mem Int) : List Int := [Int.ofNat e.off]

def c9Mem : Mem Int := ⟨[5], [6], [7]⟩

/-- Modelled from the spec: the transform the plan computes.  The
butterfly kernels that realise it are outside `src/` (only the stage
interface and scheduler are in the repository), so the numeric transform
is taken from the spec round-trip convention (section 8): the forward
transform is the unscaled sum over the root `zeta` (instantiated at
`e^(-2*pi*i/N)` over the complex numbers), and the inverse is the
unscaled sum over the reciprocal root — the true inverse scaled by N. -/
def dftSum (R : Type) [CommRing R] (zeta : R) (N : Nat) (x : Fin N → R)
    (k : Fin N) : R :=
  ∑ m : Fin N, x m * zeta ^ (k.val * m.val)

end KfrDft

namespace KfrDft

end KfrDft

namespace KfrDft

section ListHelpers

variable {α : Type}

lemma lset_set : ∀ (l : List α) (i : Nat) (v w : α), (l.set i v).set i w = l.set i w
  | [], _, _, _ => rfl
  | _ :: _, 0, _, _ => rfl
  | a :: l, i + 1, v, w => by
    simp only [List.set, List.cons.injEq, true_and]
    exact lset_set l i v w

lemma lset_id : ∀ (l : List α) (i : Nat) (v : α), l.get? i = some v → l.set i v = l
  | [], i, v, h => by simp [List.get?] at h
  | a :: l, 0, v, h => by
    simp only [List.get?, Option.some.injEq] at h
    simp [List.set, h]
  | a :: l, i + 1, v, h => by
    simp only [List.get?] at h
    simp only [List.set, List.cons.injEq, true_and]
    exact lset_id l i v h

lemma lget_replicate (z : α) : ∀ (n j : Nat), j < n → (List.replicate n z).get? j = some z
  | 0, j, h => absurd h (Nat.not_lt_zero j)
  | n + 1, 0, _ => rfl
  | n + 1, j + 1, h => by
    simp only [List.replicate, List.get?]
    exact lget_replicate z n j (Nat.lt_of_succ_lt_succ h)

lemma ldrop_cons : ∀ (l : List α) (i : Nat) (a : α),
    l.get? i = some a → l.drop i = a :: l.drop (i + 1)
  | [], i, a, h => by simp [List.get?] at h
  | b :: l, 0, a, h => by
    simp only [List.get?, Option.some.injEq] at h
    simp [h]
  | b :: l, i + 1, a, h => by
    simp only [List.get?] at h
    simpa using ldrop_cons l i a h

lemma lget_some_lt {l : List α} {i : Nat} {a : α} (h : l.get? i = some a) :
    i < l.length := by
  by_contra hc
  rw [List.get?_eq_none.mpr (Nat.le_of_not_lt hc)] at h
  exact Option.noConfusion h

lemma lget_of_lt {l : List α} {i : Nat} (h : i < l.length) :
    ∃ a, l.get? i = some a := by
  cases hg : l.get? i with
  | none => exact absurd (List.get?_eq_none.mp hg) (Nat.not_le_of_lt h)
  | some a => exact ⟨a, rfl⟩

end ListHelpers

section StepMachinery

variable (st : List dft_stage) (insc : Bool)

lemma dwN_cons {s s1 s2 : DW} {n : Nat}
    (h1 : dwBody st insc s = some (Sum.inr s1))
    (h2 : dwN st insc n s1 = some s2) :
    dwN st insc (n + 1) s = some s2 := by
  simp [dwN, h1, h2]

lemma dwN_trans : ∀ {m n : Nat} {s s1 s2 : DW},
    dwN st insc m s = some s1 → dwN st insc n s1 = some s2 →
    dwN st insc (m + n) s = some s2 := by
  intro m
  induction m with
  | zero =>
    intro n s s1 s2 h1 h2
    simp only [dwN, Option.some.injEq] at h1
    rw [Nat.zero_add, h1]
    exact h2
  | succ m ih =>
    intro n s s1 s2 h1 h2
    rw [Nat.succ_add]
    cases hb : dwBody st insc s with
    | none => simp [dwN, hb] at h1
    | some x =>
      cases x with
      | inl r => simp [dwN, hb] at h1
      | inr s3 =>
        simp only [dwN, hb] at h1 ⊢
        exact ih h1 h2

lemma dowhile_of_dwN : ∀ {n : Nat} {s s1 : DW} {r : DWRes},
    dwN st insc n s = some s1 → dwBody st insc s1 = some (Sum.inl r) →
    dowhile st insc (n + 1) s = some r := by
  intro n
  induction n with
  | zero =>
    intro s s1 r h1 h2
    simp only [dwN, Option.some.injEq] at h1
    subst h1
    simp [dowhile, h2]
  | succ n ih =>
    intro s s1 r h1 h2
    cases hb : dwBody st insc s with
    | none => simp [dwN, hb] at h1
    | some x =>
      cases x with
      | inl r2 => simp [dwN, hb] at h1
      | inr s3 =>
        simp only [dwN, hb] at h1
        rw [Nat.succ_add]
        simp only [dowhile, hb]
        exact ih h1 h2

lemma dowhile_mono : ∀ {n m : Nat} {s : DW} {r : DWRes},
    dowhile st insc n s = some r → n ≤ m → dowhile st insc m s = some r := by
  intro n
  induction n with
  | zero => intro m s r h; exact absurd h (by simp [dowhile])
  | succ n ih =>
    intro m s r h hle
    cases m with
    | zero => exact absurd hle (by omega)
    | succ m =>
      cases hb : dwBody st insc s with
      | none => simp [dowhile, hb] at h
      | some x =>
        cases x with
        | inl r2 =>
          simp only [dowhile, hb] at h ⊢
          exact h
        | inr s1 =>
          simp only [dowhile, hb] at h ⊢
          exact ih h (Nat.le_of_succ_le_succ hle)

lemma outer_mono : ∀ {n m : Nat} {depth : Nat} {stack : List Nat} {tr res : List Ev},
    outerLoop st insc n depth stack tr = some res → n ≤ m →
    outerLoop st insc m depth stack tr = some res := by
  intro n
  induction n with
  | zero => intro m depth stack tr res h; exact absurd h (by simp [outerLoop])
  | succ n ih =>
    intro m depth stack tr res h hle
    cases m with
    | zero => exact absurd hle (by omega)
    | succ m =>
      have hnm : n ≤ m := Nat.le_of_succ_le_succ hle
      cases hg : st.get? depth with
      | none =>
        simp only [outerLoop, hg] at h ⊢
        exact h
      | some sg =>
        by_cases hrec : sg.recursion = true
        · cases hd : dowhile st insc n ⟨depth, depth, depth, 0, stack, tr⟩ with
          | none =>
            simp only [outerLoop, hg, hrec, if_true, hd] at h
            exact Option.noConfusion h
          | some r =>
            simp only [outerLoop, hg, hrec, if_true, hd,
              dowhile_mono st insc hd hnm] at h ⊢
            exact ih h hnm
        · simp only [outerLoop, hg, hrec, if_false] at h ⊢
          exact ih h hnm

end StepMachinery

end KfrDft

namespace KfrDft

section RunHelpers

lemma recRun_succ {st : List dft_stage} {l : Nat} {sg : dft_stage}
    (hg : st.get? l = some sg) (hrec : sg.recursion = true) :
    recRun (st.drop l) = recRun (st.drop (l + 1)) + 1 := by
  rw [ldrop_cons st l sg hg]
  simp [recRun, hrec]

lemma descendQ_some {st : List dft_stage} {l : Nat} (h : descendQ st l = true) :
    ∃ sg1, st.get? (l + 1) = some sg1 ∧ sg1.recursion = true := by
  simp only [descendQ, Bool.and_eq_true, decide_eq_true_eq] at h
  obtain ⟨h1, h2⟩ := h
  obtain ⟨a, ha⟩ := lget_of_lt (show l + 1 < st.length by omega)
  refine ⟨a, ha, ?_⟩
  simp only [stageAt] at h2
  rw [ha] at h2
  exact h2

lemma recRun_drop_zero {st : List dft_stage} {l : Nat}
    (h : descendQ st l = false) : recRun (st.drop (l + 1)) = 0 := by
  by_cases hlt : l + 1 < st.length
  · obtain ⟨sg1, hg1⟩ := lget_of_lt hlt
    cases hr : sg1.recursion with
    | false =>
      rw [ldrop_cons st (l + 1) sg1 hg1]
      simp [recRun, hr]
    | true =>
      exfalso
      have hd : descendQ st l = true := by
        simp only [descendQ, stageAt, hg1, Option.getD_some, hr,
          Bool.and_true, decide_eq_true_eq]
        omega
      rw [hd] at h
      exact Bool.noConfusion h
  · rw [List.drop_eq_nil_of_le (by omega)]
    rfl

lemma descendQ_false_recRun {st : List dft_stage} {l : Nat} {sg : dft_stage}
    (hg : st.get? l = some sg) (hrec : sg.recursion = true)
    (hd : descendQ st l = false) : recRun (st.drop l) = 1 := by
  rw [recRun_succ hg hrec, recRun_drop_zero hd]

end RunHelpers

section StepLemmas

variable (st : List dft_stage) (insc : Bool)

lemma dwBody_exec (d l maxd off : Nat) (stack : List Nat) (tr : List Ev)
    {c : Nat} {sg : dft_stage}
    (hc : stack.get? l = some c) (hg : st.get? l = some sg)
    (hne : ¬ c = sg.repeats)
    (hld : ¬ (if descendQ st l then l + 1 else l) = d) :
    dwBody st insc ⟨d, l, maxd, off, stack, tr⟩ =
      some (Sum.inr ⟨d, if descendQ st l then l + 1 else l,
        if descendQ st l then maxd else l, off + sg.out_offset,
        stack.set l (c + 1), evAt st insc l off :: tr⟩) := by
  simp only [dwBody, hc, hg, if_neg hne, if_neg hld]

lemma dwBody_exec_exit (d l maxd off : Nat) (stack : List Nat) (tr : List Ev)
    {c : Nat} {sg : dft_stage}
    (hc : stack.get? l = some c) (hg : st.get? l = some sg)
    (hne : ¬ c = sg.repeats)
    (hld : (if descendQ st l then l + 1 else l) = d) :
    dwBody st insc ⟨d, l, maxd, off, stack, tr⟩ =
      some (Sum.inl ⟨if descendQ st l then maxd else l,
        stack.set l (c + 1), evAt st insc l off :: tr⟩) := by
  simp only [dwBody, hc, hg, if_neg hne, if_pos hld]

lemma dwBody_pop (d l maxd off : Nat) (stack : List Nat) (tr : List Ev)
    {sg : dft_stage}
    (hc : stack.get? l = some sg.repeats) (hg : st.get? l = some sg)
    (hl0 : ¬ l = 0) (hld : ¬ l - 1 = d) :
    dwBody st insc ⟨d, l, maxd, off, stack, tr⟩ =
      some (Sum.inr ⟨d, l - 1, maxd, off, stack.set l 0, tr⟩) := by
  simp only [dwBody, hc, hg, eq_self_iff_true, if_true, if_neg hl0, if_neg hld]

lemma dwBody_pop_exit (d l maxd off : Nat) (stack : List Nat) (tr : List Ev)
    {sg : dft_stage}
    (hc : stack.get? l = some sg.repeats) (hg : st.get? l = some sg)
    (hl0 : ¬ l = 0) (hld : l - 1 = d) :
    dwBody st insc ⟨d, l, maxd, off, stack, tr⟩ =
      some (Sum.inl ⟨maxd, stack.set l 0, tr⟩) := by
  simp only [dwBody, hc, hg, eq_self_iff_true, if_true, if_neg hl0, if_pos hld]

lemma refRunG_zero {g l off : Nat} :
    refRunG st insc g l 0 off = ([], off) := by
  cases g with
  | zero => rfl
  | succ g => rfl

lemma refRunG_step_desc {g l k off : Nat} {sg : dft_stage}
    (hg : st.get? l = some sg) (hdq : descendQ st l = true) :
    refRunG st insc (g + 1) l (k + 1) off =
      (evAt st insc l off ::
        ((refRunG st insc g (l + 1) (repAt st (l + 1)) (off + sg.out_offset)).1 ++
         (refRunG st insc (g + 1) l k
           (refRunG st insc g (l + 1) (repAt st (l + 1)) (off + sg.out_offset)).2).1),
       (refRunG st insc (g + 1) l k
         (refRunG st insc g (l + 1) (repAt st (l + 1)) (off + sg.out_offset)).2).2) := by
  conv_lhs => rw [refRunG]
  simp only [refRunAux, hg, hdq, if_pos]
  rw [show (refRunAux st insc
      (fun o => refRunG st insc g (l + 1) (repAt st (l + 1)) o) l k
      (refRunG st insc g (l + 1) (repAt st (l + 1)) (off + sg.out_offset)).2) =
    refRunG st insc (g + 1) l k
      (refRunG st insc g (l + 1) (repAt st (l + 1)) (off + sg.out_offset)).2 from rfl]

lemma refRunG_step_flat {g l k off : Nat} {sg : dft_stage}
    (hg : st.get? l = some sg) (hdq : descendQ st l = false) :
    refRunG st insc (g + 1) l (k + 1) off =
      (evAt st insc l off ::
        (refRunG st insc (g + 1) l k (off + sg.out_offset)).1,
       (refRunG st insc (g + 1) l k (off + sg.out_offset)).2) := by
  conv_lhs => rw [refRunG]
  simp only [refRunAux, hg, hdq, Bool.false_eq_true, if_false]
  rw [show (refRunAux st insc
      (fun o => refRunG st insc g (l + 1) (repAt st (l + 1)) o) l k
      (off + sg.out_offset)) =
    refRunG st insc (g + 1) l k (off + sg.out_offset) from rfl]
  simp

end StepLemmas

end KfrDft

namespace KfrDft

section Simulation

variable (st : List dft_stage) (insc : Bool)

/-- Simulation of one full pass over a descended recursion level: starting
the traversal at level `l` (strictly below the do-while anchor `d`) with
`k` repeats left, the body iterations perform exactly the reference
recursion events of `refRunG` and return to level `l` with its counter
saturated.  The counters above `l` used during the pass are found at 0 and
restored to 0. -/
lemma blockSim
    (HR : ∀ i sg, st.get? i = some sg → sg.recursion = true → 1 ≤ sg.repeats)
    (HB : ∀ i sg, st.get? i = some sg → sg.recursion = true → i < 32) :
    ∀ g l sg, st.length ≤ l + g → st.get? l = some sg → sg.recursion = true →
    ∀ k, k ≤ sg.repeats →
    ∀ d maxd off stack tr, d < l → stack.length = 32 →
      stack.get? l = some (sg.repeats - k) →
      (∀ j, l < j → j < 32 → stack.get? j = some 0) →
      ∃ n, dwN st insc n ⟨d, l, maxd, off, stack, tr⟩ =
        some ⟨d, l, if k = 0 then maxd else l + recRun (st.drop l) - 1,
              (refRunG st insc g l k off).2,
              stack.set l sg.repeats,
              (refRunG st insc g l k off).1.reverse ++ tr⟩ := by
  intro g
  induction g with
  | zero =>
    intro l sg hlen hg
    exact absurd (lget_some_lt hg) (by omega)
  | succ g ihg =>
    intro l sg hlen hg hrec k
    induction k with
    | zero =>
      intro _ d maxd off stack tr hdl hsl hcl hz
      refine ⟨0, ?_⟩
      have hid : stack.set l sg.repeats = stack :=
        lset_id stack l sg.repeats (by simpa using hcl)
      simp [dwN, refRunG_zero, hid]
    | succ k ihk =>
      intro hk1 d maxd off stack tr hdl hsl hcl hz
      have hl32 : l < 32 := HB l sg hg hrec
      have hset32 : ∀ a : Nat, (stack.set l a).length = 32 := by
        intro a; rw [List.length_set]; exact hsl
      have hcne : ¬ (sg.repeats - (k + 1)) = sg.repeats := by omega
      have harith : sg.repeats - (k + 1) + 1 = sg.repeats - k := by omega
      have hcl2 : (stack.set l (sg.repeats - k)).get? l = some (sg.repeats - k) :=
        List.get?_set_eq_of_lt _ (by omega)
      have hz2 : ∀ j, l < j → j < 32 →
          (stack.set l (sg.repeats - k)).get? j = some 0 := by
        intro j h1 h2
        rw [List.get?_set_ne _ _ (by omega)]
        exact hz j h1 h2
      cases hdq : descendQ st l with
      | false =>
        have hrr : recRun (st.drop l) = 1 := descendQ_false_recRun hg hrec hdq
        have hld : ¬ (if descendQ st l then l + 1 else l) = d := by
          rw [hdq]; simp; omega
        have hstep := dwBody_exec st insc d l maxd off stack tr hcl hg hcne hld
        rw [harith] at hstep
        simp only [hdq, Bool.false_eq_true, if_false] at hstep
        obtain ⟨n3, h3⟩ := ihk (by omega) d l (off + sg.out_offset)
          (stack.set l (sg.repeats - k)) (evAt st insc l off :: tr)
          hdl (hset32 _) hcl2 hz2
        refine ⟨n3 + 1, ?_⟩
        rw [dwN_cons st insc hstep h3]
        rw [refRunG_step_flat st insc hg hdq]
        simp [hrr, lset_set, List.reverse_cons, List.append_assoc]
      | true =>
        obtain ⟨sg1, hg1, hrec1⟩ := descendQ_some hdq
        have hl321 : l + 1 < 32 := HB (l + 1) sg1 hg1 hrec1
        have hr1 : 1 ≤ sg1.repeats := HR (l + 1) sg1 hg1 hrec1
        have hrep : repAt st (l + 1) = sg1.repeats := by
          simp only [repAt, stageAt]
          rw [hg1]
          rfl
        have hrs : recRun (st.drop l) = recRun (st.drop (l + 1)) + 1 :=
          recRun_succ hg hrec
        have hld : ¬ (if descendQ st l then l + 1 else l) = d := by
          rw [hdq]; simp; omega
        have hstep := dwBody_exec st insc d l maxd off stack tr hcl hg hcne hld
        rw [harith] at hstep
        simp only [hdq, if_true] at hstep
        -- the descended child pass
        obtain ⟨n2, h2⟩ := ihg (l + 1) sg1 (by omega) hg1 hrec1
          sg1.repeats (Nat.le_refl _) d maxd (off + sg.out_offset)
          (stack.set l (sg.repeats - k)) (evAt st insc l off :: tr)
          (by omega) (hset32 _)
          (by
            rw [Nat.sub_self, List.get?_set_ne _ _ (by omega)]
            exact hz (l + 1) (by omega) hl321)
          (by
            intro j h1 h2
            rw [List.get?_set_ne _ _ (by omega)]
            exact hz j (by omega) h2)
        rw [if_neg (by omega : ¬ sg1.repeats = 0)] at h2
        -- popping back from level l + 1 to level l
        have hpopc : ((stack.set l (sg.repeats - k)).set (l + 1)
            sg1.repeats).get? (l + 1) = some sg1.repeats :=
          List.get?_set_eq_of_lt _ (by rw [List.length_set]; omega)
        have hpop := dwBody_pop st insc d (l + 1)
          (l + 1 + recRun (st.drop (l + 1)) - 1)
          (refRunG st insc g (l + 1) sg1.repeats (off + sg.out_offset)).2
          ((stack.set l (sg.repeats - k)).set (l + 1) sg1.repeats)
          ((refRunG st insc g (l + 1) sg1.repeats
            (off + sg.out_offset)).1.reverse ++ evAt st insc l off :: tr)
          hpopc hg1 (by omega) (by omega : ¬ l + 1 - 1 = d)
        have hzc : (stack.set l (sg.repeats - k)).get? (l + 1) = some 0 := by
          rw [List.get?_set_ne _ _ (by omega)]
          exact hz (l + 1) (by omega) hl321
        rw [show (((stack.set l (sg.repeats - k)).set (l + 1)
            sg1.repeats).set (l + 1) 0) = stack.set l (sg.repeats - k) by
          rw [lset_set]; exact lset_id _ _ _ hzc] at hpop
        simp only [Nat.add_sub_cancel] at hpop
        -- the remaining k repeats at level l
        obtain ⟨n3, h3⟩ := ihk (by omega) d
          (l + 1 + recRun (st.drop (l + 1)) - 1)
          (refRunG st insc g (l + 1) sg1.repeats (off + sg.out_offset)).2
          (stack.set l (sg.repeats - k))
          ((refRunG st insc g (l + 1) sg1.repeats
            (off + sg.out_offset)).1.reverse ++ evAt st insc l off :: tr)
          hdl (hset32 _) hcl2 hz2
        refine ⟨n2 + (n3 + 1) + 1, ?_⟩
        rw [dwN_cons st insc hstep
          (dwN_trans st insc h2 (dwN_cons st insc hpop h3))]
        rw [refRunG_step_desc st insc hg hdq, hrep]
        have e1 : l + 1 + recRun (st.drop (l + 1)) - 1 =
            l + recRun (st.drop l) - 1 := by omega
        rw [e1]
        simp [lset_set, List.reverse_cons, List.reverse_append,
          List.append_assoc]
  -- end blockSim

end Simulation

end KfrDft

namespace KfrDft

section Simulation2

variable (st : List dft_stage) (insc : Bool)

lemma dowhile_exit {s : DW} {r : DWRes}
    (h : dwBody st insc s = some (Sum.inl r)) :
    dowhile st insc 1 s = some r := by
  simp [dowhile, h]

/-- Simulation of one whole do-while traversal entered by the outer loop
at a recursion-marked stage `d`: the first level executes exactly once
(the loop exits as soon as `rdepth` returns to `depth`), the deeper levels
of the run perform the reference recursion, and the loop returns
`maxdepth` equal to the last stage of the run. -/
lemma runTopSim
    (HR : ∀ i sg, st.get? i = some sg → sg.recursion = true → 1 ≤ sg.repeats)
    (HB : ∀ i sg, st.get? i = some sg → sg.recursion = true → i < 32) :
    ∀ G d sg, st.length ≤ d + G → st.get? d = some sg → sg.recursion = true →
    ∀ stack tr, stack.length = 32 →
      stack.get? d = some 0 →
      (∀ j, d < j → j < 32 → stack.get? j = some 0) →
      ∃ n, dowhile st insc n ⟨d, d, d, 0, stack, tr⟩ =
        some ⟨d + recRun (st.drop d) - 1, stack.set d 1,
              (refRunG st insc G d 1 0).1.reverse ++ tr⟩ := by
  intro G d sg hlen hg hrec stack tr hsl hc0 hz
  have hd32 : d < 32 := HB d sg hg hrec
  have hr : 1 ≤ sg.repeats := HR d sg hg hrec
  obtain ⟨g, rfl⟩ : ∃ g, G = g + 1 :=
    ⟨G - 1, by have := lget_some_lt hg; omega⟩
  have hcne : ¬ (0 : Nat) = sg.repeats := by omega
  cases hdq : descendQ st d with
  | false =>
    have hrr : recRun (st.drop d) = 1 := descendQ_false_recRun hg hrec hdq
    have hld : (if descendQ st d then d + 1 else d) = d := by
      rw [hdq]; simp
    have hstep := dwBody_exec_exit st insc d d d 0 stack tr hc0 hg hcne hld
    simp only [hdq, Bool.false_eq_true, if_false] at hstep
    refine ⟨1, (dowhile_exit st insc hstep).trans ?_⟩
    rw [refRunG_step_flat st insc hg hdq, refRunG_zero]
    simp [hrr]
  | true =>
    obtain ⟨sg1, hg1, hrec1⟩ := descendQ_some hdq
    have hd321 : d + 1 < 32 := HB (d + 1) sg1 hg1 hrec1
    have hr1 : 1 ≤ sg1.repeats := HR (d + 1) sg1 hg1 hrec1
    have hrep : repAt st (d + 1) = sg1.repeats := by
      simp only [repAt, stageAt]
      rw [hg1]
      rfl
    have hrs : recRun (st.drop d) = recRun (st.drop (d + 1)) + 1 :=
      recRun_succ hg hrec
    have hrs1 : recRun (st.drop (d + 1)) = recRun (st.drop (d + 2)) + 1 :=
      recRun_succ hg1 hrec1
    have hld : ¬ (if descendQ st d then d + 1 else d) = d := by
      rw [hdq]; simp
    have hstep := dwBody_exec st insc d d d 0 stack tr hc0 hg hcne hld
    simp only [hdq, if_true] at hstep
    obtain ⟨n2, h2⟩ := blockSim st insc HR HB g (d + 1) sg1 (by omega)
      hg1 hrec1 sg1.repeats (Nat.le_refl _) d d (0 + sg.out_offset)
      (stack.set d (0 + 1)) (evAt st insc d 0 :: tr) (by omega)
      (by rw [List.length_set]; exact hsl)
      (by
        rw [Nat.sub_self, List.get?_set_ne _ _ (by omega)]
        exact hz (d + 1) (by omega) hd321)
      (by
        intro j h1 h2
        rw [List.get?_set_ne _ _ (by omega)]
        exact hz j (by omega) h2)
    rw [if_neg (by omega : ¬ sg1.repeats = 0)] at h2
    have hpopc : ((stack.set d (0 + 1)).set (d + 1)
        sg1.repeats).get? (d + 1) = some sg1.repeats :=
      List.get?_set_eq_of_lt _ (by rw [List.length_set]; omega)
    have hpop := dwBody_pop_exit st insc d (d + 1)
      (d + 1 + recRun (st.drop (d + 1)) - 1)
      (refRunG st insc g (d + 1) sg1.repeats (0 + sg.out_offset)).2
      ((stack.set d (0 + 1)).set (d + 1) sg1.repeats)
      ((refRunG st insc g (d + 1) sg1.repeats
        (0 + sg.out_offset)).1.reverse ++ evAt st insc d 0 :: tr)
      hpopc hg1 (by omega) (by omega : d + 1 - 1 = d)
    have hzc : (stack.set d (0 + 1)).get? (d + 1) = some 0 := by
      rw [List.get?_set_ne _ _ (by omega)]
      exact hz (d + 1) (by omega) hd321
    rw [show (((stack.set d (0 + 1)).set (d + 1) sg1.repeats).set (d + 1) 0)
        = stack.set d (0 + 1) by
      rw [lset_set]; exact lset_id _ _ _ hzc] at hpop
    refine ⟨n2 + 1 + 1, dowhile_of_dwN st insc
      (dwN_cons st insc hstep h2) hpop |>.trans ?_⟩
    rw [refRunG_step_desc st insc hg hdq, hrep, refRunG_zero]
    have e1 : d + 1 + recRun (st.drop (d + 1)) - 1 =
        d + recRun (st.drop d) - 1 := by omega
    rw [e1]
    simp [List.reverse_cons, List.reverse_append, List.append_assoc]

/-- Simulation of the outer stage loop from stage `base`: with all
counters at and above `base` zero, it produces exactly the reference plan
trace with each recursion run entered once. -/
lemma outerSim
    (HR : ∀ i sg, st.get? i = some sg → sg.recursion = true → 1 ≤ sg.repeats)
    (HB : ∀ i sg, st.get? i = some sg → sg.recursion = true → i < 32) :
    ∀ g base stack tr, st.length ≤ base + g → stack.length = 32 →
      (∀ j, base ≤ j → j < 32 → stack.get? j = some 0) →
      ∃ n, outerLoop st insc n base stack tr =
        some (tr.reverse ++ refPlanG st insc true g base) := by
  intro g
  induction g with
  | zero =>
    intro base stack tr hlen hsl hz
    refine ⟨1, ?_⟩
    have hnone : st.get? base = none := List.get?_eq_none.mpr (by omega)
    simp only [outerLoop, hnone, refPlanG]
    simp
  | succ g ih =>
    intro base stack tr hlen hsl hz
    cases hg : st.get? base with
    | none =>
      refine ⟨1, ?_⟩
      simp only [outerLoop, hg, refPlanG]
      simp
    | some sg =>
      cases hrec : sg.recursion with
      | false =>
        obtain ⟨n, hn⟩ := ih (base + 1) stack (evAt st insc base 0 :: tr)
          (by omega) hsl (fun j h1 h2 => hz j (by omega) h2)
        refine ⟨n + 1, ?_⟩
        simp only [outerLoop, hg, hrec, Bool.false_eq_true, if_false]
        rw [hn]
        simp only [refPlanG, hg, hrec, Bool.false_eq_true, if_false]
        simp [List.append_assoc]
      | true =>
        have hd32 : base < 32 := HB base sg hg hrec
        obtain ⟨ndw, hdw⟩ := runTopSim st insc HR HB st.length base sg
          (by omega) hg hrec stack tr hsl
          (hz base (Nat.le_refl _) hd32)
          (fun j h1 h2 => hz j (by omega) h2)
        have hrunpos : 1 ≤ recRun (st.drop base) := by
          rw [recRun_succ hg hrec]; omega
        obtain ⟨nr, hnr⟩ := ih (base + recRun (st.drop base))
          (stack.set base 1)
          ((refRunG st insc st.length base 1 0).1.reverse ++ tr)
          (by omega) (by rw [List.length_set]; exact hsl)
          (by
            intro j h1 h2
            rw [List.get?_set_ne _ _ (by omega)]
            exact hz j (by omega) h2)
        refine ⟨(Nat.max ndw nr) + 1, ?_⟩
        simp only [outerLoop, hg, hrec, if_true]
        rw [dowhile_mono st insc hdw (Nat.le_max_left ndw nr)]
        dsimp only
        have e1 : base + recRun (st.drop base) - 1 + 1 =
            base + recRun (st.drop base) := by omega
        rw [e1]
        rw [outer_mono st insc hnr (Nat.le_max_right ndw nr)]
        simp only [refPlanG, hg, hrec, if_true]
        simp [List.reverse_append, List.append_assoc]

end Simulation2

end KfrDft

namespace KfrDft

section TraceWF

variable (st : List dft_stage) (insc : Bool)

lemma evAt_wf {i : Nat} (off : Nat) (h : i < st.length) :
    evWF st insc (evAt st insc i off) :=
  ⟨h, rfl, rfl⟩

lemma dwBody_wf {s : DW} {x : DWRes ⊕ DW}
    (h : dwBody st insc s = some x)
    (hwf : ∀ e ∈ s.trace, evWF st insc e) :
    ∀ e ∈ (match x with
           | Sum.inl r => r.trace
           | Sum.inr s1 => s1.trace), evWF st insc e := by
  cases hc : s.stack.get? s.rdepth with
  | none =>
    simp only [dwBody, hc] at h
    exact Option.noConfusion h
  | some c =>
    cases hgs : st.get? s.rdepth with
    | none =>
      simp only [dwBody, hc, hgs] at h
      exact Option.noConfusion h
    | some sg =>
      simp only [dwBody, hc, hgs] at h
      have hwf2 : ∀ e ∈ evAt st insc s.rdepth s.offset :: s.trace,
          evWF st insc e := by
        intro e he
        rcases List.mem_cons.mp he with he | he
        · rw [he]
          exact evAt_wf st insc s.offset (lget_some_lt hgs)
        · exact hwf e he
      split_ifs at h <;>
        first
          | exact Option.noConfusion h
          | (injection h with h
             subst h
             exact hwf)
          | (injection h with h
             subst h
             exact hwf2)

lemma dowhile_wf : ∀ {n : Nat} {s : DW} {r : DWRes},
    dowhile st insc n s = some r →
    (∀ e ∈ s.trace, evWF st insc e) → ∀ e ∈ r.trace, evWF st insc e := by
  intro n
  induction n with
  | zero => intro s r h; simp [dowhile] at h
  | succ n ih =>
    intro s r h hwf
    cases hb : dwBody st insc s with
    | none => simp [dowhile, hb] at h
    | some x =>
      cases x with
      | inl r2 =>
        simp only [dowhile, hb, Option.some.injEq] at h
        subst h
        exact dwBody_wf st insc hb hwf
      | inr s1 =>
        simp only [dowhile, hb] at h
        exact ih h (dwBody_wf st insc hb hwf)

lemma outer_wf : ∀ {n depth : Nat} {stack : List Nat} {tr res : List Ev},
    outerLoop st insc n depth stack tr = some res →
    (∀ e ∈ tr, evWF st insc e) → ∀ e ∈ res, evWF st insc e := by
  intro n
  induction n with
  | zero => intro depth stack tr res h; simp [outerLoop] at h
  | succ n ih =>
    intro depth stack tr res h hwf
    cases hg : st.get? depth with
    | none =>
      simp only [outerLoop, hg, Option.some.injEq] at h
      subst h
      intro e he
      exact hwf e (List.mem_reverse.mp he)
    | some sg =>
      cases hrec : sg.recursion with
      | true =>
        cases hd : dowhile st insc n ⟨depth, depth, depth, 0, stack, tr⟩ with
        | none =>
          simp only [outerLoop, hg, hrec, if_true, hd] at h
          exact Option.noConfusion h
        | some r2 =>
          simp only [outerLoop, hg, hrec, if_true, hd] at h
          exact ih h (dowhile_wf st insc hd hwf)
      | false =>
        simp only [outerLoop, hg, hrec, Bool.false_eq_true, if_false] at h
        refine ih h ?_
        intro e he
        rcases List.mem_cons.mp he with he | he
        · rw [he]
          exact evAt_wf st insc 0 (lget_some_lt hg)
        · exact hwf e he

end TraceWF

/-- Bridge from a `Fin`-indexed (hence decidable, for a concrete plan)
stage property to the `get?`-indexed form used by the theorems. -/
lemma stage_prop_of_fin {st : List dft_stage} {P : Nat → dft_stage → Prop}
    (h : ∀ i : Fin st.length, P i.val (st.get i)) :
    ∀ i sg, st.get? i = some sg → P i sg := by
  intro i sg hg
  have hlt := lget_some_lt hg
  have hv := h ⟨i, hlt⟩
  rw [List.get?_eq_get hlt] at hg
  injection hg with hg
  rw [← hg]
  exact hv

end KfrDft

namespace KfrDft

/-- Claim C1, amended.  For every plan whose recursion-marked stages sit
inside the 32-entry counter array and have `repeats` at least 1, the
iterative depth-counter traversal of `execute_dft` performs exactly the
same sequence of stage invocations, with the same accumulated
output-pointer offsets (and the same buffer routing), as the recursive
depth-first reference in which the first level of each recursion run
executes exactly once and every deeper level runs its stage `repeats`
times per parent repeat, advancing the shared output offset by
`out_offset` at each repeat and descending into the next recursion stage
after each repeat.  The amendment relative to the claim as stated
concerns only the run's first level: the do-while loop exits as soon as
`rdepth` returns to `depth`, so the first stage of a run executes once
regardless of its `repeats` value (see the counterexample theorem). -/
theorem C1_recursion_flattening_amended (st : List dft_stage) (insc : Bool)
    (fuel : Nat) (tr : List Ev)
    (hrep : ∀ i sg, st.get? i = some sg → sg.recursion = true → 1 ≤ sg.repeats)
    (hbound : ∀ i sg, st.get? i = some sg → sg.recursion = true → i < 32)
    (hrun : outerLoop st insc fuel 0 (List.replicate 32 0) [] = some tr) :
    tr = refPlan st insc true := by
  obtain ⟨n, hn⟩ := outerSim st insc hrep hbound st.length 0
    (List.replicate 32 0) [] (by omega) (by simp)
    (fun j h1 h2 => lget_replicate 0 32 j h2)
  have h1 := outer_mono st insc hrun (Nat.le_max_left fuel n)
  have h2 := outer_mono st insc hn (Nat.le_max_right fuel n)
  rw [h1] at h2
  exact Option.some.inj h2

/-- Claim C1, counterexample to the claim as stated.  In `cexStages` the
first recursion stage has `repeats = 2` (all repeats positive, indices
below 32), yet the iterative traversal executes it exactly once: its trace
has two invocations, while the reference in which each level runs its
stage `repeats` times (refPlan with `topOnce = false`) invokes stage 0
twice, at offsets 0 and 1. -/
theorem C1_recursion_flattening_counterexample :
    outerLoop cexStages false 16 0 (List.replicate 32 0) [] =
      some [⟨0, Buf.out, Buf.inp, 0⟩, ⟨1, Buf.out, Buf.out, 0⟩] ∧
    refPlan cexStages false false =
      [⟨0, Buf.out, Buf.inp, 0⟩, ⟨0, Buf.out, Buf.inp, 1⟩,
       ⟨1, Buf.out, Buf.out, 0⟩] ∧
    ([⟨0, Buf.out, Buf.inp, 0⟩, ⟨1, Buf.out, Buf.out, 0⟩] : List Ev) ≠
      refPlan cexStages false false :=
  ⟨by decide, by decide, by decide⟩

/-- Witness for amended claim C1 on the concrete three-level plan
`wPlan`. -/
theorem C1_recursion_flattening_witness : wTrace = refPlan wPlan false true :=
  C1_recursion_flattening_amended wPlan false 64 wTrace
    (stage_prop_of_fin (by decide)) (stage_prop_of_fin (by decide))
    (by decide)

/-- Claim C7.  For every nonempty plan whose recursion-marked stages sit
inside the 32-entry counter array and have `repeats` at least 1, the
embedded `execute_dft` succeeds for sufficient fuel.  Since the embedding
returns `none` on any counter-array access out of range, on the level
underflow `rdepth--` at level 0, and on fuel exhaustion, success means
every read and write of the per-level repeat counters stays within
indices 0..31, the level moves never leave that range, and the traversal
loop terminates. -/
theorem C7_execute_dft_total (st : List dft_stage) (inEqOut : Bool)
    (hne : st ≠ [])
    (hrep : ∀ i sg, st.get? i = some sg → sg.recursion = true → 1 ≤ sg.repeats)
    (hbound : ∀ i sg, st.get? i = some sg → sg.recursion = true → i < 32) :
    ∃ fuel r, execute_dft st inEqOut fuel = some r := by
  cases st with
  | nil => exact absurd rfl hne
  | cons s0 rest =>
    by_cases hfast : (s0 :: rest).length = 1 ∧
        (s0.can_inplace = true ∨ inEqOut = false)
    · refine ⟨1, ⟨false, [⟨0, Buf.out, Buf.inp, 0⟩]⟩, ?_⟩
      simp only [execute_dft, if_pos hfast]
    · obtain ⟨n, hn⟩ := outerSim (s0 :: rest) (!s0.can_inplace && inEqOut)
        hrep hbound (s0 :: rest).length 0 (List.replicate 32 0) []
        (by omega) (by simp)
        (fun j h1 h2 => lget_replicate 0 32 j h2)
      refine ⟨n, ⟨!s0.can_inplace && inEqOut,
        refPlanG (s0 :: rest) (!s0.can_inplace && inEqOut) true
          (s0 :: rest).length 0⟩, ?_⟩
      simp only [execute_dft, if_neg hfast, hn, List.reverse_nil,
        List.nil_append]

/-- Witness for claim C7 on the concrete plan `wPlan`. -/
theorem C7_execute_dft_total_witness :
    ∃ fuel r, execute_dft wPlan false fuel = some r :=
  C7_execute_dft_total wPlan false (by decide)
    (stage_prop_of_fin (by decide)) (stage_prop_of_fin (by decide))

/-- Claim C2.  On the multi-stage path, every recorded invocation of a
stage k writes to the scratch buffer exactly when its `to_scratch` flag is
set (otherwise to the caller output buffer), and every invocation of a
stage k with k at least 1 reads from exactly the buffer that stage k-1
writes its output to. -/
theorem C2_stage_buffer_routing (st : List dft_stage) (insc : Bool)
    (fuel : Nat) (tr : List Ev)
    (h : outerLoop st insc fuel 0 (List.replicate 32 0) [] = some tr) :
    ∀ e ∈ tr,
      (e.outB = if (stageAt st e.idx).to_scratch then Buf.scratch
                else Buf.out) ∧
      (1 ≤ e.idx →
        e.inB = if (stageAt st (e.idx - 1)).to_scratch then Buf.scratch
                else Buf.out) := by
  intro e he
  obtain ⟨hi, ho, hin⟩ := outer_wf st insc h (by simp) e he
  constructor
  · rw [ho]
    rfl
  · intro h1
    rw [hin]
    simp only [select_in, if_neg (show ¬ e.idx = 0 by omega)]

/-- Witness for claim C2: the stage-1 invocation of the `wPlan` run
writes to the output buffer (stage 1 has `to_scratch = false`) and reads
from the scratch buffer that stage 0 (with `to_scratch = true`) wrote. -/
theorem C2_stage_buffer_routing_witness :
    ((⟨1, Buf.out, Buf.scratch, 4⟩ : Ev).outB =
      if (stageAt wPlan (⟨1, Buf.out, Buf.scratch, 4⟩ : Ev).idx).to_scratch
      then Buf.scratch else Buf.out) ∧
    (1 ≤ (⟨1, Buf.out, Buf.scratch, 4⟩ : Ev).idx →
      (⟨1, Buf.out, Buf.scratch, 4⟩ : Ev).inB =
        if (stageAt wPlan
            ((⟨1, Buf.out, Buf.scratch, 4⟩ : Ev).idx - 1)).to_scratch
        then Buf.scratch else Buf.out) :=
  C2_stage_buffer_routing wPlan false 64 wTrace (by decide)
    ⟨1, Buf.out, Buf.scratch, 4⟩ (by decide)

/-- Claim C3.  On the multi-stage path, the input is copied to the scratch
buffer exactly when the first stage cannot run in place and the caller
buffers alias (`copied` records the `in_scratch` copy decision of fft.hpp
lines 264-268), and in that case every invocation of stage 0 reads from
the scratch copy; in every other multi-stage execution stage 0 reads
directly from the input buffer and no copy is made. -/
theorem C3_first_stage_scratch_copy (st : List dft_stage) (inEqOut : Bool)
    (fuel : Nat) (r : ExecResult) (s0 : dft_stage) (rest : List dft_stage)
    (hst : st = s0 :: rest)
    (hnf : ¬ (st.length = 1 ∧ (s0.can_inplace = true ∨ inEqOut = false)))
    (h : execute_dft st inEqOut fuel = some r) :
    r.copied = (!s0.can_inplace && inEqOut) ∧
    ∀ e ∈ r.trace, e.idx = 0 →
      e.inB = if r.copied = true then Buf.scratch else Buf.inp := by
  subst hst
  simp only [execute_dft, if_neg hnf] at h
  cases ho : outerLoop (s0 :: rest) (!s0.can_inplace && inEqOut) fuel 0
      (List.replicate 32 0) [] with
  | none =>
    rw [ho] at h
    exact Option.noConfusion h
  | some tr =>
    rw [ho] at h
    injection h with h
    subst h
    refine ⟨rfl, ?_⟩
    intro e he h0
    obtain ⟨hi, hout, hin⟩ := outer_wf _ _ ho (by simp) e he
    rw [hin, h0]
    simp [select_in]

/-- Witness for claim C3: a two-stage plan whose first stage cannot run in
place, called with aliasing buffers; the copy is made and stage 0 reads
the scratch copy. -/
theorem C3_first_stage_scratch_copy_witness :
    c3Result.copied =
      (!(⟨1, 0, false, false, true⟩ : dft_stage).can_inplace && true) ∧
    ∀ e ∈ c3Result.trace, e.idx = 0 →
      e.inB = if c3Result.copied = true then Buf.scratch else Buf.inp :=
  C3_first_stage_scratch_copy
    [⟨1, 0, false, false, true⟩, ⟨1, 0, false, true, false⟩] true 8
    c3Result ⟨1, 0, false, false, true⟩ [⟨1, 0, false, true, false⟩] rfl
    (by decide) (by decide)

/-- Claim C4.  Whenever a plan has exactly one stage and either that stage
can run in place or the caller buffers do not alias, `execute_dft`
delegates directly to the single stage with the caller buffers: the
result is one invocation of stage 0 writing `out` from `in`, with no
input copy (`copied = false`) and no routing bookkeeping. -/
theorem C4_single_stage_fast_path (st : List dft_stage) (inEqOut : Bool)
    (fuel : Nat) (s0 : dft_stage) (hst : st = [s0])
    (hc : s0.can_inplace = true ∨ inEqOut = false) :
    execute_dft st inEqOut fuel =
      some ⟨false, [⟨0, Buf.out, Buf.inp, 0⟩]⟩ := by
  subst hst
  have hcond : ([s0] : List dft_stage).length = 1 ∧
      (s0.can_inplace = true ∨ inEqOut = false) := ⟨rfl, hc⟩
  simp only [execute_dft, if_pos hcond]

/-- Witness for claim C4: a single not-in-place-capable stage with
distinct buffers takes the fast path. -/
theorem C4_single_stage_fast_path_witness :
    execute_dft [⟨1, 0, false, false, true⟩] false 0 =
      some ⟨false, [⟨0, Buf.out, Buf.inp, 0⟩]⟩ :=
  C4_single_stage_fast_path [⟨1, 0, false, false, true⟩] false 0
    ⟨1, 0, false, false, true⟩ rfl (Or.inr rfl)

end KfrDft

namespace KfrDft

lemma zipWith_get? {α β γ : Type} (f : α → β → γ) :
    ∀ (l1 : List α) (l2 : List β) (i : Nat),
      (List.zipWith f l1 l2).get? i =
        match l1.get? i, l2.get? i with
        | some a, some b => some (f a b)
        | _, _ => none
  | [], l2, i => by cases l2 <;> cases i <;> rfl
  | a :: l1, [], i => by
    cases i with
    | zero => rfl
    | succ n =>
      cases hc : l1.get? n with
      | none => simp [List.zipWith, List.get?, hc]
      | some v => simp [List.zipWith, List.get?, hc]
  | a :: l1, b :: l2, 0 => rfl
  | a :: l1, b :: l2, i + 1 => zipWith_get? f l1 l2 i

end KfrDft

namespace KfrDft

/-- Claim C5, amended.  For every pack format, `fft_multiply` sets every
bin `i ≥ 1` to the complex product of the corresponding source bins; bin 0
receives the componentwise product (re*re for the real slot, im*im for
the imaginary slot) exactly when the format is `Perm`, and the ordinary
complex product when the format is `CCs`.  Both `fft_multiply_accumulate`
variants apply the identical rule to their accumulated product.  The
amendment relative to the claim as stated: the claim asserted the bin-0
special case for every pack format, while the code guards it with
`if (fmt == dft_pack_format::Perm)` (see the counterexample theorem). -/
theorem C5_fft_multiply_bins {α : Type} [Mul α] [Add α] [Sub α] [Zero α]
    (dest src1 src2 src3 : List (Cx α)) (fmt : dft_pack_format) (i : Nat)
    (hi : 1 ≤ i) (h1 : src1 ≠ []) (h2 : src2 ≠ []) (h3 : src3 ≠ [])
    (hd : dest ≠ []) :
    ((fft_multiply src1 src2 fmt).get? i =
      (List.zipWith cmul src1 src2).get? i) ∧
    ((fft_multiply_accumulate dest src1 src2 fmt).get? i =
      (List.zipWith cadd dest (List.zipWith cmul src1 src2)).get? i) ∧
    ((fft_multiply_accumulate3 src1 src2 src3 fmt).get? i =
      (List.zipWith cadd src1 (List.zipWith cmul src2 src3)).get? i) ∧
    ((fft_multiply src1 src2 dft_pack_format.Perm).get? 0 =
      some ⟨(src1.getD 0 cx0).re * (src2.getD 0 cx0).re,
            (src1.getD 0 cx0).im * (src2.getD 0 cx0).im⟩) ∧
    ((fft_multiply src1 src2 dft_pack_format.CCs).get? 0 =
      some (cmul (src1.getD 0 cx0) (src2.getD 0 cx0))) ∧
    ((fft_multiply_accumulate dest src1 src2 dft_pack_format.Perm).get? 0 =
      some ⟨(dest.getD 0 cx0).re +
              (src1.getD 0 cx0).re * (src2.getD 0 cx0).re,
            (dest.getD 0 cx0).im +
              (src1.getD 0 cx0).im * (src2.getD 0 cx0).im⟩) ∧
    ((fft_multiply_accumulate dest src1 src2 dft_pack_format.CCs).get? 0 =
      some (cadd (dest.getD 0 cx0)
        (cmul (src1.getD 0 cx0) (src2.getD 0 cx0)))) ∧
    ((fft_multiply_accumulate3 src1 src2 src3 dft_pack_format.Perm).get? 0 =
      some ⟨(src1.getD 0 cx0).re +
              (src2.getD 0 cx0).re * (src3.getD 0 cx0).re,
            (src1.getD 0 cx0).im +
              (src2.getD 0 cx0).im * (src3.getD 0 cx0).im⟩) ∧
    ((fft_multiply_accumulate3 src1 src2 src3 dft_pack_format.CCs).get? 0 =
      some (cadd (src1.getD 0 cx0)
        (cmul (src2.getD 0 cx0) (src3.getD 0 cx0)))) := by
  obtain ⟨a1, t1, rfl⟩ := List.exists_cons_of_ne_nil h1
  obtain ⟨a2, t2, rfl⟩ := List.exists_cons_of_ne_nil h2
  obtain ⟨a3, t3, rfl⟩ := List.exists_cons_of_ne_nil h3
  obtain ⟨ad, td, rfl⟩ := List.exists_cons_of_ne_nil hd
  obtain ⟨j, rfl⟩ : ∃ j, i = j + 1 := ⟨i - 1, by omega⟩
  refine ⟨?_, ?_, ?_, ?_, ?_, ?_, ?_, ?_, ?_⟩ <;>
    cases fmt <;>
      simp [fft_multiply, fft_multiply_accumulate,
        fft_multiply_accumulate3, List.zipWith, List.get?]

/-- Claim C5 counterexample: in the `CCs` format the code leaves bin 0 as
the full complex product, not the componentwise combination: with
src1 = src2 = [(0, 1)] over the integers, `fft_multiply` produces (-1, 0)
at bin 0, while the claim as stated demands (0*0, 1*1) = (0, 1). -/
theorem C5_fft_multiply_counterexample :
    fft_multiply ([⟨0, 1⟩] : List (Cx Int)) [⟨0, 1⟩] dft_pack_format.CCs =
      [⟨-1, 0⟩] ∧
    (⟨-1, 0⟩ : Cx Int) ≠ ⟨0 * 0, 1 * 1⟩ := by
  refine ⟨by decide, by decide⟩

/-- Witness for amended claim C5 at concrete one-bin integer spectra. -/
theorem C5_fft_multiply_bins_witness :
    ((fft_multiply c5a c5b dft_pack_format.Perm).get? 1 =
      (List.zipWith cmul c5a c5b).get? 1) ∧
    ((fft_multiply_accumulate c5d c5a c5b dft_pack_format.Perm).get? 1 =
      (List.zipWith cadd c5d (List.zipWith cmul c5a c5b)).get? 1) ∧
    ((fft_multiply_accumulate3 c5a c5b c5c dft_pack_format.Perm).get? 1 =
      (List.zipWith cadd c5a (List.zipWith cmul c5b c5c)).get? 1) ∧
    ((fft_multiply c5a c5b dft_pack_format.Perm).get? 0 =
      some ⟨(c5a.getD 0 cx0).re * (c5b.getD 0 cx0).re,
            (c5a.getD 0 cx0).im * (c5b.getD 0 cx0).im⟩) ∧
    ((fft_multiply c5a c5b dft_pack_format.CCs).get? 0 =
      some (cmul (c5a.getD 0 cx0) (c5b.getD 0 cx0))) ∧
    ((fft_multiply_accumulate c5d c5a c5b dft_pack_format.Perm).get? 0 =
      some ⟨(c5d.getD 0 cx0).re + (c5a.getD 0 cx0).re * (c5b.getD 0 cx0).re,
            (c5d.getD 0 cx0).im +
              (c5a.getD 0 cx0).im * (c5b.getD 0 cx0).im⟩) ∧
    ((fft_multiply_accumulate c5d c5a c5b dft_pack_format.CCs).get? 0 =
      some (cadd (c5d.getD 0 cx0)
        (cmul (c5a.getD 0 cx0) (c5b.getD 0 cx0)))) ∧
    ((fft_multiply_accumulate3 c5a c5b c5c dft_pack_format.Perm).get? 0 =
      some ⟨(c5a.getD 0 cx0).re + (c5b.getD 0 cx0).re * (c5c.getD 0 cx0).re,
            (c5a.getD 0 cx0).im +
              (c5b.getD 0 cx0).im * (c5c.getD 0 cx0).im⟩) ∧
    ((fft_multiply_accumulate3 c5a c5b c5c dft_pack_format.CCs).get? 0 =
      some (cadd (c5a.getD 0 cx0)
        (cmul (c5b.getD 0 cx0) (c5c.getD 0 cx0)))) :=
  C5_fft_multiply_bins c5d c5a c5b c5c dft_pack_format.Perm 1
    (by decide) (by decide) (by decide) (by decide) (by decide)

end KfrDft

namespace KfrDft

/-- Claim C6.  The forward real-to-complex execute consists of exactly
the inner half-size plan run forward followed by the packing stage, whose
format conversion is the final write of the pipeline (targeting the
output buffer), with no further work; and the inverse complex-to-real
execute runs the packing stage first, then executes the inner plan in
inverse direction.  (C6 leaves the direction tag of the inverse packing
call unspecified; that tag is the subject of claim C10.) -/
theorem C6_real_adapter_order :
    (realExecuteForwardPtr.map (fun c => (c.isFmt, c.dir)) =
      [(false, RDir.direct), (true, RDir.direct)]) ∧
    (realExecuteForwardPtr.getLast?.map (fun c => c.dst) =
      some RPtr.outPtr) ∧
    (realExecuteInversePtr.map (fun c => c.isFmt) = [true, false]) ∧
    (realExecuteInversePtr.getLast?.map (fun c => c.dir) =
      some RDir.invert) := by
  refine ⟨by decide, by decide, by decide, by decide⟩

/-- Claim C10 (code bug).  The raw-pointer complex-to-real overload passes
the direct tag (`cfalse`, line 345) to the packing stage while the
univector overload passes the invert tag (`ctrue`, line 361): the two
overloads invoke the packing stage with different direction tags, and for
any packing semantics that distinguishes directions (exhibited here over
the integers) they compute different results for the same input
values. -/
theorem C10_inverse_overloads_disagree :
    realExecuteInversePtr.map (fun c => c.dir) ≠
      realExecuteInverseUni.map (fun c => c.dir) ∧
    realInversePtrResult c10FmtSem c10InnerSem [1] ≠
      realInverseUniResult c10FmtSem c10InnerSem [1] := by
  refine ⟨by decide, by decide⟩

end KfrDft

namespace KfrDft

lemma runTrace_inBuf {α : Type} (sem : Ev → Mem α → List α) :
    ∀ (tr : List Ev) (m : Mem α), (∀ e ∈ tr, e.outB ≠ Buf.inp) →
      (runTrace sem m tr).inBuf = m.inBuf
  | [], m, _ => rfl
  | e :: tr, m, h => by
    have h1 : e.outB ≠ Buf.inp := h e (List.mem_cons_self e tr)
    have h2 : (runEv sem m e).inBuf = m.inBuf := by
      cases hb : e.outB with
      | inp => exact absurd hb h1
      | out => simp [runEv, hb, bufSet]
      | scratch => simp [runEv, hb, bufSet]
    rw [runTrace,
      runTrace_inBuf sem tr (runEv sem m e) (fun x hx => h x (by simp [hx])),
      h2]

lemma select_out_ne_inp (st : List dft_stage) (i : Nat) :
    select_out st i ≠ Buf.inp := by
  unfold select_out
  cases (stageAt st i).to_scratch <;> simp

/-- Claim C9.  For every execution with `in != out` (`inEqOut = false`),
given the stage contract that an invocation writes only through its
output pointer (arbitrary kernel semantics `sem`), the input buffer is
left unchanged after the call: no `in_scratch` copy is made and every
recorded write targets the output or scratch buffer, never the input.
Additionally, every invocation of the final stage targets the caller
output buffer whenever the build-time routing leaves that stage with
`to_scratch = false` — the factory invariant under which the transformed
sequence lands in `out` (the numeric value written there is computed by
the external kernels and is outside this embedding). -/
theorem C9_input_buffer_preserved (st : List dft_stage) (fuel : Nat)
    (r : ExecResult) (h : execute_dft st false fuel = some r) :
    (∀ (α : Type) (sem : Ev → Mem α → List α) (m : Mem α),
      (runExec sem r m).inBuf = m.inBuf) ∧
    (∀ e ∈ r.trace, e.idx = st.length - 1 →
      (stageAt st e.idx).to_scratch = false → e.outB = Buf.out) := by
  cases st with
  | nil => exact absurd h (by simp [execute_dft])
  | cons s0 rest =>
    simp only [execute_dft] at h
    split_ifs at h with hf
    · injection h with h
      subst h
      constructor
      · intro α sem m
        exact runTrace_inBuf sem _ _ (by intro e he; simp at he; simp [he])
      · intro e he h1 h2
        simp only [List.mem_singleton] at he
        rw [he]
    · cases ho : outerLoop (s0 :: rest) (!s0.can_inplace && false) fuel 0
          (List.replicate 32 0) [] with
      | none =>
        rw [ho] at h
        exact Option.noConfusion h
      | some tr =>
        rw [ho] at h
        injection h with h
        subst h
        have hwf := outer_wf _ _ ho (by simp)
        constructor
        · intro α sem m
          rw [runExec]
          simp only [Bool.and_false, if_false]
          refine runTrace_inBuf sem _ _ ?_
          intro e he
          rw [(hwf e he).2.1]
          exact select_out_ne_inp _ _
        · intro e he h1 h2
          rw [(hwf e he).2.1, select_out, h2]
          simp

/-- Witness for claim C9: interpreting the recorded `wPlan` execution
over concrete integer memory with a concrete kernel semantics leaves the
input buffer untouched. -/
theorem C9_input_buffer_preserved_witness :
    (runExec c9Sem ⟨false, wTrace⟩ c9Mem).inBuf = c9Mem.inBuf :=
  (C9_input_buffer_preserved wPlan 64 ⟨false, wTrace⟩ (by decide)).1
    Int c9Sem c9Mem

end KfrDft

namespace KfrDft

lemma dftSum_orthogonality {R : Type} [CommRing R] [IsDomain R] {N : Nat}
    {zeta xi : R} (hprim : IsPrimitiveRoot zeta N) (hinv : zeta * xi = 1)
    (n m : Fin N) :
    (∑ k : Fin N, (zeta ^ m.val * xi ^ n.val) ^ k.val) =
      if m = n then (N : R) else 0 := by
  have hxiN : xi ^ N = 1 := by
    have h1 : zeta ^ N * xi ^ N = 1 := by
      rw [← mul_pow, hinv, one_pow]
    rwa [hprim.pow_eq_one, one_mul] at h1
  by_cases hmn : m = n
  · subst hmn
    have hw : zeta ^ m.val * xi ^ m.val = 1 := by
      rw [← mul_pow, hinv, one_pow]
    simp [hw]
  · have hxz : xi ^ n.val * zeta ^ n.val = 1 := by
      rw [← mul_pow, mul_comm xi zeta, hinv, one_pow]
    have hw1 : zeta ^ m.val * xi ^ n.val ≠ 1 := by
      intro hw
      apply hmn
      have hz : zeta ^ m.val = zeta ^ n.val := by
        calc zeta ^ m.val
            = zeta ^ m.val * (xi ^ n.val * zeta ^ n.val) := by
              rw [hxz, mul_one]
          _ = zeta ^ m.val * xi ^ n.val * zeta ^ n.val := by ring
          _ = zeta ^ n.val := by rw [hw, one_mul]
      exact Fin.ext (hprim.pow_inj m.isLt n.isLt hz)
    have hwN : (zeta ^ m.val * xi ^ n.val) ^ N = 1 := by
      rw [mul_pow, ← pow_mul, ← pow_mul, Nat.mul_comm m.val N,
        Nat.mul_comm n.val N, pow_mul, pow_mul, hprim.pow_eq_one,
        one_pow, hxiN, one_pow, one_mul]
    have hsum0 : (∑ i ∈ Finset.range N,
        (zeta ^ m.val * xi ^ n.val) ^ i) = 0 := by
      have hgs := geom_sum_mul (zeta ^ m.val * xi ^ n.val) N
      rw [hwN, sub_self] at hgs
      rcases mul_eq_zero.mp hgs with h0 | h0
      · exact h0
      · exact absurd (sub_eq_zero.mp h0) hw1
    rw [if_neg hmn,
      Fin.sum_univ_eq_sum_range (fun i => (zeta ^ m.val * xi ^ n.val) ^ i) N]
    exact hsum0

/-- DFT inversion over any integral domain with an N-th primitive root:
the inverse sum of the forward sum returns N times the input. -/
lemma dftSum_inversion {R : Type} [CommRing R] [IsDomain R] {N : Nat}
    {zeta xi : R} (hprim : IsPrimitiveRoot zeta N) (hinv : zeta * xi = 1)
    (x : Fin N → R) (n : Fin N) :
    dftSum R xi N (dftSum R zeta N x) n = (N : R) * x n := by
  calc dftSum R xi N (dftSum R zeta N x) n
      = ∑ k : Fin N, (∑ m : Fin N, x m * zeta ^ (k.val * m.val)) *
          xi ^ (n.val * k.val) := rfl
    _ = ∑ k : Fin N, ∑ m : Fin N,
          x m * (zeta ^ m.val * xi ^ n.val) ^ k.val := by
        refine Finset.sum_congr rfl ?_
        intro k _
        rw [Finset.sum_mul]
        refine Finset.sum_congr rfl ?_
        intro m _
        rw [mul_pow, ← pow_mul, ← pow_mul, Nat.mul_comm m.val k.val,
          mul_assoc]
    _ = ∑ m : Fin N, ∑ k : Fin N,
          x m * (zeta ^ m.val * xi ^ n.val) ^ k.val := Finset.sum_comm
    _ = ∑ m : Fin N, x m *
          ∑ k : Fin N, (zeta ^ m.val * xi ^ n.val) ^ k.val := by
        refine Finset.sum_congr rfl ?_
        intro m _
        rw [Finset.mul_sum]
    _ = ∑ m : Fin N, x m * (if m = n then (N : R) else 0) := by
        refine Finset.sum_congr rfl ?_
        intro m _
        rw [dftSum_orthogonality hprim hinv n m]
    _ = (N : R) * x n := by
        rw [Finset.sum_congr rfl
          (fun m _ => by rw [mul_ite, mul_zero])]
        rw [Finset.sum_ite_eq' Finset.univ n (fun m => x m * (N : R))]
        simp [mul_comm]

/-- Claim C8 (spec-modelled).  For every size N and every complex
sequence x of length N, executing the transform forward (the unscaled DFT
with root e^(-2*pi*i/N)) and then inverse (the unscaled conjugate sum,
i.e. the true inverse scaled by N) yields exactly N times x; the
floating-point kernels of the library realise this identity within
tolerance. -/
theorem C8_forward_inverse_roundtrip (N : Nat) (x : Fin N → ℂ) (n : Fin N) :
    dftSum ℂ (Complex.exp (2 * (Real.pi : ℂ) * Complex.I / (N : ℂ))) N
      (dftSum ℂ
        (Complex.exp (-(2 * (Real.pi : ℂ) * Complex.I) / (N : ℂ))) N x)
      n = (N : ℂ) * x n := by
  have hN : N ≠ 0 := Nat.pos_iff_ne_zero.mp n.pos
  have hprim0 : IsPrimitiveRoot
      (Complex.exp (2 * (Real.pi : ℂ) * Complex.I / (N : ℂ))) N :=
    Complex.isPrimitiveRoot_exp N hN
  have hneg : (-(2 * (Real.pi : ℂ) * Complex.I)) / (N : ℂ) =
      -(2 * (Real.pi : ℂ) * Complex.I / (N : ℂ)) := neg_div _ _
  have hinv : Complex.exp (-(2 * (Real.pi : ℂ) * Complex.I) / (N : ℂ)) *
      Complex.exp (2 * (Real.pi : ℂ) * Complex.I / (N : ℂ)) = 1 := by
    rw [← Complex.exp_add, hneg, neg_add_cancel, Complex.exp_zero]
  have hprim : IsPrimitiveRoot
      (Complex.exp (-(2 * (Real.pi : ℂ) * Complex.I) / (N : ℂ))) N := by
    rw [hneg, Complex.exp_neg]
    exact hprim0.inv
  exact dftSum_inversion hprim hinv x n

end KfrDft

